import Mathlib

/-!
Verification development for the `enginen` repository (a prototype pipeline
shell with a streaming table renderer).  The definitions below are a shallow
embedding of `src/main.rs` and `src/table.rs`: pure Lean functions mirroring
the Rust functions, with `usize` modelled as `Nat` (with explicit `% 2^64`
where wrap-around matters) and the pull-based async streams modelled as
explicit lists of the items an upstream would yield.
-/

set_option maxRecDepth 4000

namespace Enginen

/-- The `Value` enum of `src/main.rs` (lines 21-31).  `Value::Row` holds an
`IndexMap<String, Value>`, modelled as an insertion-ordered association list;
`Value::String`/`Bool`/`Nothing`/`List` are the other variants (constructor
names are lower-cased where the Rust name would clash with a Lean type). -/
inductive Value where
  | str     : String → Value
  | bool    : Bool → Value
  | nothing : Value
  | row     : List (String × Value) → Value
  | list    : List Value → Value
deriving Repr

/-- `Value::column_names` (main.rs lines 34-39): the keys of a `Row`, in
insertion order; every other variant has no column names. -/
def Value.column_names : Value → List String
  | .row r => r.map Prod.fst
  | _ => []

mutual

/-- The `Display` impl for `Value` (main.rs lines 42-78): `format!("{}", v)`. -/
def Value.display : Value → String
  | .str s => s
  | .bool b => if b then "true" else "false"
  | .nothing => ""
  | .row r => "\x7b" ++ displayRowFields r ++ "\x7d"
  | .list l => "[" ++ displayListItems l ++ "]"

/-- Comma-joined `k: v` pairs of a `Row`, as printed by the `Display` impl. -/
def displayRowFields : List (String × Value) → String
  | [] => ""
  | [kv] => kv.1 ++ ": " ++ Value.display kv.2
  | kv :: rest => kv.1 ++ ": " ++ Value.display kv.2 ++ ", " ++ displayRowFields rest

/-- Comma-joined items of a `List` value, as printed by the `Display` impl. -/
def displayListItems : List Value → String
  | [] => ""
  | [v] => Value.display v
  | v :: rest => Value.display v ++ ", " ++ displayListItems rest

end

/-- The `Action` enum of main.rs (lines 80-84). -/
inductive Action where
  | Increment : Action
  | Greet : Action
deriving Repr, DecidableEq

/-- The `ReturnValue` enum of main.rs (lines 86-90): what a `PipelineElement`
yields per pull — a control action or a data value. -/
inductive ReturnValue where
  | action : Action → ReturnValue
  | value : Value → ReturnValue
deriving Repr

/-- The error produced by `ActionRunner::next` when the ctrl-c signal is
observed (main.rs lines 219-224): an `io::Error` of kind `Interrupted`,
i.e. the `Cancelled` error of the spec. -/
inductive PError where
  | Cancelled : PError
deriving Repr, DecidableEq

/-- `ActionRunner::next` (main.rs lines 215-244).  The upstream
`PipelineElement` is modelled as the list of items its successive `next()`
calls would yield (`[]` = exhausted); `ctrl_c` models whether the ctrl-c
signal is present on the channel throughout this call.  The Rust loop is
`while let Some(res) = input.next().await? { if ctrl_c.try_recv().is_some()
{ return Err(...) } match res { ... } }`: the pull happens first, the
cancellation check second.  Returns (result, final counter, remaining
upstream items); the number of pulls performed is the length difference. -/
def ActionRunner.next (ctrl_c : Bool) : Nat → List ReturnValue →
    Except PError (Option Value) × Nat × List ReturnValue
  | counter, [] => (.ok none, counter, [])
  | counter, res :: rest =>
    if ctrl_c then (.error .Cancelled, counter, rest)
    else
      match res with
      | .action .Increment => ActionRunner.next ctrl_c (counter + 1) rest
      | .action .Greet => ActionRunner.next ctrl_c counter rest
      | .value v => (.ok (some v), counter, rest)

/-- `STREAM_PAGE_SIZE` (table.rs line 456): the per-page item cap. -/
def STREAM_PAGE_SIZE : Nat := 1000

/-- The inner `for idx in 0..STREAM_PAGE_SIZE` accumulation loop of
`TableCommand::table` (table.rs lines 489-529), with the upstream connector
modelled as the list of values it would yield.  `fuel` is the number of loop
iterations left (`STREAM_PAGE_SIZE` at entry), `acc` is `new_input`, `delay`
is `delay_slot`, `inp` the remaining upstream.  Per iteration: a delayed
value is pushed first; otherwise one value is pulled — if the page is
non-empty and the pulled value's `column_names` differ from the first page
item's, the value is parked in the delay slot and the loop breaks; pulling
from an exhausted upstream sets `finished` and breaks.  The 1-second
wall-clock check (lines 520-527) is a real-time condition outside the
embedding; this models the runs in which it never fires.  Returns
(page, delay slot, remaining upstream, finished). -/
def fillPage : Nat → List Value → Option Value → List Value →
    List Value × Option Value × List Value × Bool
  | 0, acc, delay, inp => (acc, delay, inp, false)
  | fuel + 1, acc, delay, inp =>
    match delay with
    | some v => fillPage fuel (acc ++ [v]) none inp
    | none =>
      match inp with
      | [] => (acc, none, [], true)
      | a :: rest =>
        match acc with
        | [] => fillPage fuel [a] none rest
        | first :: _ =>
          if first.column_names ≠ a.column_names then (acc, some a, rest, false)
          else fillPage fuel (acc ++ [a]) none rest

/-- The outer `while !finished` loop of `TableCommand::table` (table.rs
lines 485-544): accumulate a page with `fillPage`, render it when non-empty
(`TableView::from_list` + `print_view`), advance `start_number` by the page
length, repeat.  The result is the list of rendered pages, each as (the
page's values, the `start_number` row-index offset it was rendered with).
`fuel` bounds the number of outer iterations; each iteration either consumes
upstream input or observes `finished`, so `input.length + 2` always
suffices (see `table`). -/
def tableLoop : Nat → Nat → Option Value → List Value → Bool →
    List (List Value × Nat)
  | 0, _, _, _, _ => []
  | fuel + 1, start_number, delay, inp, finished =>
    if finished then []
    else
      let r := fillPage STREAM_PAGE_SIZE [] delay inp
      (if 0 < r.1.length then [(r.1, start_number)] else []) ++
        tableLoop fuel (start_number + r.1.length) r.2.1 r.2.2.1 r.2.2.2

/-- `TableCommand::table` (table.rs lines 460-547) on an upstream that
yields exactly the values of `inp` and then ends: the sequence of rendered
pages with their row-index offsets. -/
def table (inp : List Value) : List (List Value × Nat) :=
  tableLoop (inp.length + 2) 0 none inp false

/-- A table cell: (display text, prettytable style string), the
`(String, &'static str)` pairs of table.rs line 8. -/
abbrev Cell := String × String

/-- `type Entries` (table.rs line 8): rows of cells. -/
abbrev Entries := List (List Cell)

/-- The `TableView` struct (table.rs lines 12-19). -/
structure TableView where
  headers : List String
  entries : Entries
deriving Repr

/-- `merge_descriptors` (table.rs lines 75-94): fold over the values; a
value with no column names appends the anonymous header `""` if absent,
otherwise each of its column names is appended if absent. -/
def merge_descriptors (values : List Value) : List String :=
  values.foldl
    (fun ret value =>
      let descs := value.column_names
      if descs.isEmpty then
        if ret.contains "" then ret else ret ++ [""]
      else
        descs.foldl (fun r d => if r.contains d then r else r ++ [d]) ret)
    []

/-- `values_to_entries` (table.rs lines 96-135).  The `&mut headers`
argument is modelled by returning the (possibly extended) headers alongside
the entries: headers gain `""` when empty; each row is one cell per header
— for the anonymous header the value's display text unless it is a `Row`;
for a named header the `Row` field's display text if present — with the
synthetic index cell `(starting_idx + idx, "Fgbr")` inserted at position 0. -/
def values_to_entries (values : List Value) (headers0 : List String)
    (starting_idx : Nat) : List String × Entries :=
  let headers := if headers0.isEmpty then [""] else headers0
  (headers,
    values.enum.map (fun p =>
      (toString (starting_idx + p.1), "Fgbr") ::
        headers.map (fun d =>
          if d = "" then
            match p.2 with
            | .row _ => ("", "")
            | v => (v.display, "")
          else
            match p.2 with
            | .row r =>
              match r.lookup d with
              | some data => (data.display, "")
              | none => ("", "")
            | v => (v.display, ""))))

/-- `max_per_column` (table.rs lines 138-156): for each header index `i`,
the maximum of the character counts of cell `i` of the first `values_len`
entry rows (note each entry row starts with the synthetic index cell, so
cell `i` of a row is the index cell when `i = 0` and the data cell of
header `i - 1` otherwise), maxed with the character count of header `i`. -/
def max_per_column (headers : List String) (entries : Entries)
    (values_len : Nat) : List Nat :=
  (List.range headers.length).map (fun i =>
    max
      (((entries.take values_len).map (fun e => (e.getD i ("", "")).1.length)).foldl max 0)
      (headers.getD i "").length)

/-- `maybe_truncate_columns` (table.rs lines 158-176): when
`termwidth / 10` is smaller than the header count, truncate headers and
every entry row to `termwidth / 10` items and append a literal `"..."`
column to both (the row ellipsis cell carries the centred style `"c"`). -/
def maybe_truncate_columns (headers : List String) (entries : Entries)
    (termwidth : Nat) : List String × Entries :=
  let max_num_of_columns := termwidth / 10
  if max_num_of_columns < headers.length then
    (headers.take max_num_of_columns ++ ["..."],
      entries.map (fun e => e.take max_num_of_columns ++ [("...", "c")]))
  else
    (headers, entries)

/-- The `ColumnSpace` struct (table.rs lines 178-182). -/
structure ColumnSpace where
  num_overages : Nat
  underage_sum : Nat
  overage_separator_sum : Nat
deriving Repr, DecidableEq

/-- The separator space charged to column `i` of `headers_len` columns in
both `ColumnSpace` passes (table.rs lines 199-203, 207-213, 241-245,
250-254): 3 characters unless the column is last, plus 1 extra for the
first column. -/
def sepFor (headers_len i : Nat) : Nat :=
  (if i ≠ headers_len - 1 then 3 else 0) + (if i = 0 then 1 else 0)

/-- One iteration of the loop in `ColumnSpace::measure` (table.rs lines
196-215), on the pair (column index, column natural width): an overage
column (width > naive width) bumps `num_overages` and its separator space;
an underage column folds its width plus separator space into
`underage_sum`. -/
def measureStep (max_naive_column_width headers_len : Nat)
    (cs : ColumnSpace) (p : Nat × Nat) : ColumnSpace :=
  if p.2 > max_naive_column_width then
    { cs with
      num_overages := cs.num_overages + 1,
      overage_separator_sum := cs.overage_separator_sum + sepFor headers_len p.1 }
  else
    { cs with
      underage_sum := cs.underage_sum + p.2 + sepFor headers_len p.1 }

/-- `ColumnSpace::measure` (table.rs lines 186-222):
`max_per_column.iter().enumerate().take(headers_len)` folded through
`measureStep` from the zero `ColumnSpace`. -/
def ColumnSpace.measure (max_per_column : List Nat)
    (max_naive_column_width headers_len : Nat) : ColumnSpace :=
  (max_per_column.enum.take headers_len).foldl
    (measureStep max_naive_column_width headers_len) ⟨0, 0, 0⟩

/-- One iteration of the loop in `ColumnSpace::fix_almost_column_width`
(table.rs lines 236-258): only previously-overage columns (width > naive
width) are reconsidered — one whose width fits in `max_column_width` is
folded into `underage_sum`, the rest are counted as overages again. -/
def fixStep (max_naive_column_width max_column_width headers_len : Nat)
    (cs : ColumnSpace) (p : Nat × Nat) : ColumnSpace :=
  if p.2 > max_naive_column_width then
    if p.2 ≤ max_column_width then
      { cs with
        underage_sum := cs.underage_sum + p.2 + sepFor headers_len p.1 }
    else
      { cs with
        num_overages := cs.num_overages + 1,
        overage_separator_sum := cs.overage_separator_sum + sepFor headers_len p.1 }
  else cs

/-- `ColumnSpace::fix_almost_column_width` (table.rs lines 224-265): the
refinement pass, starting from the measured `underage_sum` with overage
counters reset to zero. -/
def ColumnSpace.fix_almost_column_width (self : ColumnSpace)
    (max_per_column : List Nat)
    (max_naive_column_width max_column_width headers_len : Nat) : ColumnSpace :=
  (max_per_column.enum.take headers_len).foldl
    (fixStep max_naive_column_width max_column_width headers_len)
    ⟨0, self.underage_sum, 0⟩

/-- `ColumnSpace::max_width` (table.rs lines 267-279): the even split of
the remaining budget over the overage columns, or the 99999 sentinel when
there is none.  (The Rust `usize` subtraction is modelled by truncated
`Nat` subtraction.) -/
def ColumnSpace.max_width (self : ColumnSpace) (termwidth : Nat) : Nat :=
  if self.num_overages > 0 then
    (termwidth - 1 - self.underage_sum - self.overage_separator_sum) / self.num_overages
  else 99999

/-- Modelled from the spec: `textwrap::fill` is an external crate; per spec
§4.5 step 6 it word-wraps text to the given width at whitespace boundaries,
joining the lines with newlines.  No claim depends on its exact output. -/
def fill (text : String) (width : Nat) : String :=
  match (text.split (fun c => c = ' ')).filter (fun w => ¬ w.isEmpty) with
  | [] => ""
  | w :: rest =>
    (rest.foldl
      (fun acc w =>
        if acc.2 + 1 + w.length ≤ width then (acc.1 ++ " " ++ w, acc.2 + 1 + w.length)
        else (acc.1 ++ "\n" ++ w, w.length))
      (w, w.length)).1

/-- `wrap_cells` (table.rs lines 282-300): for each header index whose
natural width exceeds the naive width, wrap that header and cell `head` of
every entry row to `max_column_width`; all other text is untouched (entry
cells beyond the header count — the final data cell of each row — are never
visited by the loop). -/
def wrap_cells (headers : List String) (entries : Entries)
    (max_per_column : List Nat)
    (max_naive_column_width max_column_width : Nat) : TableView :=
  { headers := headers.enum.map (fun p =>
      if max_per_column.getD p.1 0 > max_naive_column_width then
        fill p.2 max_column_width
      else p.2),
    entries := entries.map (fun e =>
      e.enum.map (fun p =>
        if p.1 < headers.length ∧ max_per_column.getD p.1 0 > max_naive_column_width then
          (fill p.2.1 max_column_width, p.2.2)
        else p.2)) }

/-- `TableView::from_list` (table.rs lines 27-72), with the terminal width
already computed (line 33 reads it from the environment; see
`termwidth_of_reported`): header union, matrix build, natural widths,
column-count truncation, the two-pass budget partition, and cell wrapping. -/
def TableView.from_list (values : List Value) (starting_idx : Nat)
    (termwidth : Nat) : Option TableView :=
  if values.isEmpty then none
  else
    let p := values_to_entries values (merge_descriptors values) starting_idx
    let mpc := max_per_column p.1 p.2 values.length
    let q := maybe_truncate_columns p.1 p.2 termwidth
    let headers_len := q.1.length
    let max_naive_column_width := (termwidth - 3 * (headers_len - 1)) / headers_len
    let column_space := ColumnSpace.measure mpc max_naive_column_width headers_len
    let max_column_width := column_space.max_width termwidth
    let column_space2 := column_space.fix_almost_column_width mpc
      max_naive_column_width max_column_width headers_len
    let max_column_width2 := column_space2.max_width termwidth
    some (wrap_cells q.1 q.2 mpc max_naive_column_width max_column_width2)

/-- The `skip_headers` condition of `TableView::print_view` (table.rs lines
341-342): the header row is suppressed when the header list has exactly two
entries with the second empty, or exactly one entry which is empty. -/
def skip_headers (headers : List String) : Bool :=
  (headers.length == 2 && headers.getD 1 "" == "") ||
    (headers.length == 1 && headers.getD 0 "" == "")

/-- `usize::MAX + 1`. -/
def USIZE : Nat := 2 ^ 64

/-- Wrap-around (release-build) semantics of `usize` subtraction `a - b`
for `a, b < USIZE`; in debug builds the same underflow panics. -/
def sub_usize (a b : Nat) : Nat := (a + USIZE - b % USIZE) % USIZE

/-- Whether the `usize` subtraction `a - b` underflows. -/
def sub_underflows (a b : Nat) : Bool := a < b

/-- table.rs line 33: `std::cmp::max(textwrap::termwidth() - 7, 20)`, the
terminal width budget computed from the terminal's reported width. -/
def termwidth_of_reported (reported : Nat) : Nat :=
  max (sub_usize reported 7) 20

/-!  ## Claim C1: cancellation in the action adapter -/

/-- C1, counterexample.  The claim says that once the cancellation signal is
set, `ActionRunner::next` returns a `Cancelled` error *without pulling the
upstream further*.  In the code the pull happens before the flag check: with
the signal set and one value upstream, the call returns `Cancelled` but has
consumed the upstream item (remaining upstream `[]`, not the original
one-element list); and on an exhausted upstream the call returns `Ok(None)`
rather than a `Cancelled` error. -/
theorem c1_counterexample :
    (ActionRunner.next true 0 [ReturnValue.value (Value.str "x")]).2.2 ≠
      [ReturnValue.value (Value.str "x")] ∧
    (ActionRunner.next true 0 ([] : List ReturnValue)).1 ≠
      Except.error PError.Cancelled := by
  constructor
  · show ([] : List ReturnValue) ≠ [ReturnValue.value (Value.str "x")]
    simp
  · show (Except.ok none : Except PError (Option Value)) ≠ Except.error PError.Cancelled
    simp

/-- C1, amended.  With the cancellation signal set, `ActionRunner::next`
checks the flag after each upstream pull and before acting on the pulled
item: on a non-empty upstream it pulls exactly one item, discards it
(actions are not executed, values are not yielded, the counter is
untouched) and returns the `Cancelled` error; on an exhausted upstream it
returns `Ok(None)`.  In particular no value pulled after the signal is set
is ever yielded downstream. -/
theorem c1_cancelled_after_one_pull (counter : Nat) (inp : List ReturnValue) :
    (inp = [] → ActionRunner.next true counter inp = (.ok none, counter, [])) ∧
    (∀ r rest, inp = r :: rest →
      ActionRunner.next true counter inp = (.error .Cancelled, counter, rest)) ∧
    (∀ v, (ActionRunner.next true counter inp).1 ≠ .ok (some v)) := by
  cases inp <;> simp [ActionRunner.next]

/-- C1, witness for `c1_cancelled_after_one_pull`: with the signal set, a
pulled `Increment` action is discarded (not executed) and the error is
returned after that single pull. -/
theorem c1_witness :
    ActionRunner.next true 5
        [ReturnValue.action Action.Increment, ReturnValue.value (Value.str "x")] =
      (.error .Cancelled, 5, [ReturnValue.value (Value.str "x")]) :=
  (c1_cancelled_after_one_pull 5 _).2.1 _ _ rfl

/-!  ## Claim C2: natural widths -/

/-- The natural-width computation as the claim states it (one width per
layout column, *including* the synthetic leading index column, each pairing
a column's own cells with that same column's header): the index column's
width is the maximum character count of the index cells (it has no header),
and the width of the column headed by header `j` is the maximum character
count of that column's cells (cell `j + 1` of each row) maxed with header
`j`'s character count. -/
def max_per_column_claimed (headers : List String) (entries : Entries)
    (values_len : Nat) : List Nat :=
  (((entries.take values_len).map (fun e => (e.getD 0 ("", "")).1.length)).foldl max 0) ::
    headers.enum.map (fun p =>
      max
        (((entries.take values_len).map
            (fun e => (e.getD (p.1 + 1) ("", "")).1.length)).foldl max 0)
        p.2.length)

/-- C2, counterexample.  For the single row `{ab: "xyzw"}` (entry row
`[index cell "0", data cell "xyzw"]`), the code computes the single width
`max(len "0", len "ab") = 2`: it pairs header `ab` with the *index* cells,
and the data cell `"xyzw"` of the `ab` column enters no width at all.  The
claim's per-column widths would be `[1, 4]` (index column 1, `ab` column
`max(4, 2) = 4`). -/
theorem c2_counterexample :
    max_per_column ["ab"] [[("0", "Fgbr"), ("xyzw", "")]] 1 = [2] ∧
    max_per_column_claimed ["ab"] [[("0", "Fgbr"), ("xyzw", "")]] 1 = [1, 4] ∧
    ([2] : List Nat) ≠ [1, 4] := by
  refine ⟨rfl, rfl, by simp⟩

/-- C2, amended.  `max_per_column` computes one width per *header* (not per
layout column): entry `i` is the maximum of header `i`'s character count
and the character counts of cell `i` of every row — and since every row
starts with the synthetic index cell, cell `i` is the index cell for
`i = 0` and the data cell of header `i - 1` otherwise.  The widths are thus
shifted by one against the headers, and the last data column's cells enter
no width. -/
theorem c2_width_per_header (headers : List String) (entries : Entries)
    (n i : Nat) (hi : i < headers.length) :
    (max_per_column headers entries n).getD i 0 =
      max
        (((entries.take n).map (fun e => (e.getD i ("", "")).1.length)).foldl max 0)
        (headers.getD i "").length ∧
    (max_per_column headers entries n).length = headers.length := by
  constructor
  · simp [max_per_column, List.getD_eq_getElem?_getD, List.getElem?_map,
      List.getElem?_range, hi]
  · simp [max_per_column]

/-- C2, witness for `c2_width_per_header` at the counterexample input: the
single computed width pairs header `"ab"` with the index cell `"0"`. -/
theorem c2_witness :
    (max_per_column ["ab"] [[("0", "Fgbr"), ("xyzw", "")]] 1).getD 0 0 = 2 := by
  have h := (c2_width_per_header ["ab"] [[("0", "Fgbr"), ("xyzw", "")]] 1 0 (by simp)).1
  simpa using h

/-!  ## Claim C3: column-count truncation -/

/-- C3.  When the header count exceeds `termwidth / 10`, the allocator
truncates the headers and every row to `termwidth / 10` items and appends
one literal ellipsis column to both (the row ellipsis cell centred); the
resulting header list is the kept prefix plus `"..."` with
`termwidth / 10 + 1` entries, the truncated data is discarded, and every
row with at least `termwidth / 10` cells ends up with exactly
`termwidth / 10 + 1` cells.  For `termwidth = 100` and 15 header columns
this gives 11 headers and 11 cells per row (see `c3_witness`). -/
theorem c3_truncation (headers : List String) (entries : Entries) (W : Nat)
    (h : W / 10 < headers.length) :
    (maybe_truncate_columns headers entries W).1 = headers.take (W / 10) ++ ["..."] ∧
    (maybe_truncate_columns headers entries W).1.length = W / 10 + 1 ∧
    (maybe_truncate_columns headers entries W).2 =
      entries.map (fun e => e.take (W / 10) ++ [("...", "c")]) ∧
    (∀ e ∈ entries, W / 10 ≤ e.length →
      (e.take (W / 10) ++ [("...", "c")]).length = W / 10 + 1) := by
  refine ⟨?_, ?_, ?_, ?_⟩
  · simp [maybe_truncate_columns, h]
  · simp [maybe_truncate_columns, h, Nat.le_of_lt h]
  · simp [maybe_truncate_columns, h]
  · intro e _ he
    simp [he]

/-- C3, witness for `c3_truncation`: `termwidth = 100` with 15 distinct
header columns (and a 16-cell row: index cell plus 15 data cells) yields a
final header count of 11 and exactly 11 cells in the row. -/
theorem c3_witness :
    (maybe_truncate_columns ((List.range 15).map toString)
        [(List.range 16).map (fun i => (toString i, ""))] 100).1.length = 11 ∧
    ∀ e ∈ (maybe_truncate_columns ((List.range 15).map toString)
        [(List.range 16).map (fun i => (toString i, ""))] 100).2, e.length = 11 := by
  have h := c3_truncation ((List.range 15).map toString)
    [(List.range 16).map (fun i => (toString i, ""))] 100 (by simp)
  constructor
  · rw [h.2.1]
  · rw [h.2.2.1]
    intro e he
    simp only [List.map_cons, List.map_nil, List.mem_singleton] at he
    subst he
    exact h.2.2.2 ((List.range 16).map (fun i => (toString i, ""))) (by simp) (by simp)

/-!  ## Claim C4: two-pass budget partition -/

/-- The naive even column width `A = (W - 3*(k-1)) / k` of the claim
(table.rs line 44). -/
def naiveWidth (W k : Nat) : Nat := (W - 3 * (k - 1)) / k

/-- Claim C4's first-pass overage count: the number of columns whose
natural width exceeds `A`. -/
def numOverageSpec (mpc : List Nat) (A k : Nat) : Nat :=
  ((mpc.enum.take k).filter (fun p => A < p.2)).length

/-- Claim C4's first-pass underage reservation: each column with natural
width ≤ `A` consumes its natural width plus its separator space. -/
def underageSumSpec (mpc : List Nat) (A k : Nat) : Nat :=
  (((mpc.enum.take k).filter (fun p => p.2 ≤ A)).map
    (fun p => p.2 + sepFor k p.1)).sum

/-- Claim C4's first-pass overage separator space. -/
def overageSepSpec (mpc : List Nat) (A k : Nat) : Nat :=
  (((mpc.enum.take k).filter (fun p => A < p.2)).map (fun p => sepFor k p.1)).sum

/-- Claim C4's `maxOverage = (W - 1 - underageSum - overageSeparators) /
numOverage` (99999 when there is no overage column). -/
def maxOverageSpec (mpc : List Nat) (W A k : Nat) : Nat :=
  if 0 < numOverageSpec mpc A k then
    (W - 1 - underageSumSpec mpc A k - overageSepSpec mpc A k) / numOverageSpec mpc A k
  else 99999

/-- Claim C4's refined overage set: overage columns whose natural width
still exceeds the first-pass `maxOverage`. -/
def numOverage2Spec (mpc : List Nat) (W A k : Nat) : Nat :=
  ((mpc.enum.take k).filter
    (fun p => A < p.2 && maxOverageSpec mpc W A k < p.2)).length

/-- Claim C4's refined underage reservation: the first-pass reservation
plus every reclassified column's exact width and separator space. -/
def underageSum2Spec (mpc : List Nat) (W A k : Nat) : Nat :=
  underageSumSpec mpc A k +
    (((mpc.enum.take k).filter
        (fun p => A < p.2 && p.2 ≤ maxOverageSpec mpc W A k)).map
      (fun p => p.2 + sepFor k p.1)).sum

/-- Claim C4's refined overage separator space. -/
def overageSep2Spec (mpc : List Nat) (W A k : Nat) : Nat :=
  (((mpc.enum.take k).filter
      (fun p => A < p.2 && maxOverageSpec mpc W A k < p.2)).map
    (fun p => sepFor k p.1)).sum

/-- Claim C4's recomputed `maxOverage` over the smaller overage set. -/
def maxOverage2Spec (mpc : List Nat) (W A k : Nat) : Nat :=
  if 0 < numOverage2Spec mpc W A k then
    (W - 1 - underageSum2Spec mpc W A k - overageSep2Spec mpc W A k) /
      numOverage2Spec mpc W A k
  else 99999

/-- Unfolding of the `ColumnSpace::measure` loop: the fold sorts each
(column index, natural width) pair into overage count / underage sum /
overage separator sum according to the naive-width threshold. -/
theorem measure_foldl (A k : Nat) (l : List (Nat × Nat)) (cs : ColumnSpace) :
    l.foldl (measureStep A k) cs =
      ⟨cs.num_overages + (l.filter (fun p => A < p.2)).length,
       cs.underage_sum +
         ((l.filter (fun p => p.2 ≤ A)).map (fun p => p.2 + sepFor k p.1)).sum,
       cs.overage_separator_sum +
         ((l.filter (fun p => A < p.2)).map (fun p => sepFor k p.1)).sum⟩ := by
  induction l generalizing cs with
  | nil => simp
  | cons p t ih =>
    rw [List.foldl_cons, ih]
    by_cases hp : A < p.2
    · have hp' : ¬ p.2 ≤ A := Nat.not_le.mpr hp
      simp [measureStep, hp, hp', ColumnSpace.mk.injEq]
      all_goals omega
    · have hp' : p.2 ≤ A := Nat.not_lt.mp hp
      simp [measureStep, hp, hp', ColumnSpace.mk.injEq]
      all_goals omega

/-- Unfolding of the `ColumnSpace::fix_almost_column_width` loop: only
first-pass overage columns are reconsidered, and they are split on the
`max_column_width` threshold. -/
theorem fix_foldl (A mo k : Nat) (l : List (Nat × Nat)) (cs : ColumnSpace) :
    l.foldl (fixStep A mo k) cs =
      ⟨cs.num_overages + (l.filter (fun p => A < p.2 && mo < p.2)).length,
       cs.underage_sum +
         ((l.filter (fun p => A < p.2 && p.2 ≤ mo)).map
           (fun p => p.2 + sepFor k p.1)).sum,
       cs.overage_separator_sum +
         ((l.filter (fun p => A < p.2 && mo < p.2)).map
           (fun p => sepFor k p.1)).sum⟩ := by
  induction l generalizing cs with
  | nil => simp
  | cons p t ih =>
    rw [List.foldl_cons, ih]
    by_cases hp : A < p.2
    · by_cases hm : p.2 ≤ mo
      · have hm' : ¬ mo < p.2 := Nat.not_lt.mpr hm
        simp [fixStep, hp, hm, hm', ColumnSpace.mk.injEq]
        all_goals omega
      · have hm' : mo < p.2 := Nat.not_le.mp hm
        simp [fixStep, hp, hm, hm', ColumnSpace.mk.injEq]
        all_goals omega
    · have hp' : p.2 ≤ A := Nat.not_lt.mp hp
      simp [fixStep, hp, ColumnSpace.mk.injEq]

/-- C4.  The budget partition is exactly the claimed two passes: with
`A = (W - 3*(k-1)) / k`, the first pass classifies a column underage iff
its natural width is ≤ `A`, reserving its natural width plus separator
space (3 characters when not last, 1 extra for the first column), and
computes `maxOverage = (W - 1 - underageSum - overageSeparators) /
numOverage`; the refinement pass reclassifies any overage column with
natural width ≤ `maxOverage` as underage and recomputes `maxOverage` once
more from the smaller overage set. -/
theorem c4_two_pass (mpc : List Nat) (W k : Nat) :
    ColumnSpace.measure mpc (naiveWidth W k) k =
      ⟨numOverageSpec mpc (naiveWidth W k) k,
       underageSumSpec mpc (naiveWidth W k) k,
       overageSepSpec mpc (naiveWidth W k) k⟩ ∧
    (ColumnSpace.measure mpc (naiveWidth W k) k).max_width W =
      maxOverageSpec mpc W (naiveWidth W k) k ∧
    (ColumnSpace.measure mpc (naiveWidth W k) k).fix_almost_column_width mpc
        (naiveWidth W k)
        ((ColumnSpace.measure mpc (naiveWidth W k) k).max_width W) k =
      ⟨numOverage2Spec mpc W (naiveWidth W k) k,
       underageSum2Spec mpc W (naiveWidth W k) k,
       overageSep2Spec mpc W (naiveWidth W k) k⟩ ∧
    ((ColumnSpace.measure mpc (naiveWidth W k) k).fix_almost_column_width mpc
        (naiveWidth W k)
        ((ColumnSpace.measure mpc (naiveWidth W k) k).max_width W) k).max_width W =
      maxOverage2Spec mpc W (naiveWidth W k) k := by
  have h1 : ColumnSpace.measure mpc (naiveWidth W k) k =
      ⟨numOverageSpec mpc (naiveWidth W k) k,
       underageSumSpec mpc (naiveWidth W k) k,
       overageSepSpec mpc (naiveWidth W k) k⟩ := by
    rw [ColumnSpace.measure, measure_foldl]
    simp [numOverageSpec, underageSumSpec, overageSepSpec]
  have h2 : (ColumnSpace.measure mpc (naiveWidth W k) k).max_width W =
      maxOverageSpec mpc W (naiveWidth W k) k := by
    rw [h1, ColumnSpace.max_width, maxOverageSpec]
  have h3 : (ColumnSpace.measure mpc (naiveWidth W k) k).fix_almost_column_width mpc
      (naiveWidth W k)
      ((ColumnSpace.measure mpc (naiveWidth W k) k).max_width W) k =
      ⟨numOverage2Spec mpc W (naiveWidth W k) k,
       underageSum2Spec mpc W (naiveWidth W k) k,
       overageSep2Spec mpc W (naiveWidth W k) k⟩ := by
    rw [h2, ColumnSpace.fix_almost_column_width, fix_foldl, h1]
    simp [numOverage2Spec, underageSum2Spec, overageSep2Spec]
  refine ⟨h1, h2, h3, ?_⟩
  rw [h3, ColumnSpace.max_width, maxOverage2Spec]

/-!  ## Pagination lemmas (claims C5 and C6) -/

/-- On a signature-homogeneous upstream the accumulation loop never parks a
value: it simply moves up to `fuel` values onto the page, and `finished` is
set exactly when the upstream ran dry during the loop. -/
theorem fillPage_homog (s : List String) (fuel : Nat) :
    ∀ (inp acc : List Value),
      (∀ x ∈ acc, x.column_names = s) → (∀ x ∈ inp, x.column_names = s) →
      fillPage fuel acc none inp =
        (acc ++ inp.take fuel, none, inp.drop fuel, decide (inp.length < fuel)) := by
  induction fuel with
  | zero => intro inp acc _ _; simp [fillPage]
  | succ n ih =>
    intro inp acc hacc hinp
    cases inp with
    | nil => simp [fillPage]
    | cons a rest =>
      have ha : a.column_names = s := hinp a (by simp)
      have hrest : ∀ x ∈ rest, x.column_names = s := fun x hx => hinp x (by simp [hx])
      cases acc with
      | nil =>
        rw [fillPage, ih rest [a] (by simpa using ha) hrest]
        simp [Nat.succ_lt_succ_iff]
      | cons f t =>
        have hf : f.column_names = s := hacc f (by simp)
        rw [fillPage]
        rw [if_neg (by simp [hf, ha])]
        rw [ih rest (f :: t ++ [a])
          (by intro x hx; simp at hx
              rcases hx with hx | hx | hx
              · simp [hx, hf]
              · exact hacc x (by simp [hx])
              · simp [hx, ha])
          hrest]
        simp [Nat.succ_lt_succ_iff]

/-- When a signature-homogeneous prefix is followed by a value of a
different signature, the accumulation loop collects exactly the prefix,
parks the offending value in the delay slot, and stops without finishing. -/
theorem fillPage_break (s : List String) :
    ∀ (pre : List Value) (fuel : Nat) (acc : List Value) (b : Value)
      (rest : List Value),
      (∀ x ∈ acc, x.column_names = s) → (∀ x ∈ pre, x.column_names = s) →
      b.column_names ≠ s → (acc = [] → pre ≠ []) → pre.length < fuel →
      fillPage fuel acc none (pre ++ b :: rest) = (acc ++ pre, some b, rest, false) := by
  intro pre
  induction pre with
  | nil =>
    intro fuel acc b rest hacc _ hb hne hfuel
    cases fuel with
    | zero => omega
    | succ n =>
      cases acc with
      | nil => exact absurd rfl (hne rfl)
      | cons f t =>
        have hf : f.column_names = s := hacc f (by simp)
        simp only [List.nil_append]
        rw [fillPage]
        rw [if_pos (by rw [hf]; exact fun h => hb h.symm)]
        simp
  | cons p pre' ih =>
    intro fuel acc b rest hacc hpre hb hne hfuel
    have hp : p.column_names = s := hpre p (by simp)
    have hpre' : ∀ x ∈ pre', x.column_names = s := fun x hx => hpre x (by simp [hx])
    cases fuel with
    | zero => simp at hfuel
    | succ n =>
      have hn : pre'.length < n := by simpa using hfuel
      cases acc with
      | nil =>
        simp only [List.cons_append]
        rw [fillPage]
        rw [ih n [p] b rest (by simpa using hp) hpre' hb
          (fun h => absurd h (by simp)) hn]
        simp
      | cons f t =>
        have hf : f.column_names = s := hacc f (by simp)
        simp only [List.cons_append]
        rw [fillPage]
        rw [if_neg (by simp [hf, hp])]
        rw [ih n (f :: t ++ [p]) b rest
          (by intro x hx; simp at hx
              rcases hx with hx | hx | hx
              · simp [hx, hf]
              · exact hacc x (by simp [hx])
              · simp [hx, hp])
          hpre' hb (fun h => absurd h (by simp)) hn]
        simp

/-- One outer iteration of the paginator on a homogeneous (replicated)
upstream: a page of `min 1000 n` records is rendered at the current offset
and the loop continues on the remaining `n - 1000` records, finishing
exactly when the upstream ran dry mid-page. -/
theorem tableLoop_replicate_step (v : Value) (fuel n start : Nat)
    (hf : 0 < fuel) (hn : 0 < n) :
    tableLoop fuel start none (List.replicate n v) false =
      (List.replicate (min STREAM_PAGE_SIZE n) v, start) ::
        tableLoop (fuel - 1) (start + min STREAM_PAGE_SIZE n) none
          (List.replicate (n - STREAM_PAGE_SIZE) v)
          (decide (n < STREAM_PAGE_SIZE)) := by
  cases fuel with
  | zero => omega
  | succ m =>
    rw [tableLoop]
    rw [fillPage_homog v.column_names STREAM_PAGE_SIZE (List.replicate n v) []
      (by simp) (by intro x hx; rw [List.eq_of_mem_replicate hx])]
    have hsps : 0 < STREAM_PAGE_SIZE := by norm_num [STREAM_PAGE_SIZE]
    simp [List.take_replicate, List.drop_replicate, Nat.min_comm, hn, hsps]

/-- The outer paginator loop emits nothing once `finished` is set. -/
theorem tableLoop_finished (fuel start : Nat) (delay : Option Value)
    (inp : List Value) : tableLoop fuel start delay inp true = [] := by
  cases fuel <;> simp [tableLoop]

/-- C5.  Draining 2500 column-homogeneous records (with the 1-second page
time budget never tripping, which is how the real-time check of table.rs
lines 520-527 is modelled) renders exactly 3 pages of sizes 1000, 1000,
500 at running row-index offsets 0, 1000, 2000, with the per-page item cap
`STREAM_PAGE_SIZE` fixed at 1000. -/
theorem c5_pagination :
    STREAM_PAGE_SIZE = 1000 ∧
    (table (List.replicate 2500 (Value.row [("a", Value.str "x")]))).map
      (fun p => (p.1.length, p.2)) = [(1000, 0), (1000, 1000), (500, 2000)] := by
  refine ⟨rfl, ?_⟩
  rw [table]
  simp only [List.length_replicate]
  rw [tableLoop_replicate_step (Value.row [("a", Value.str "x")]) (2500 + 2) 2500 0
    (by norm_num) (by norm_num)]
  norm_num [STREAM_PAGE_SIZE]
  rw [tableLoop_replicate_step (Value.row [("a", Value.str "x")]) 2501 1500 1000
    (by norm_num) (by norm_num)]
  norm_num [STREAM_PAGE_SIZE]
  rw [tableLoop_replicate_step (Value.row [("a", Value.str "x")]) 2500 500 2000
    (by norm_num) (by norm_num)]
  norm_num [STREAM_PAGE_SIZE]
  rw [tableLoop_finished]

/-- One outer paginator iteration while not finished, with the fuel left
symbolic. -/
theorem tableLoop_step (fuel start : Nat) (delay : Option Value)
    (inp : List Value) (hf : 0 < fuel) :
    tableLoop fuel start delay inp false =
      (if 0 < (fillPage STREAM_PAGE_SIZE [] delay inp).1.length then
        [((fillPage STREAM_PAGE_SIZE [] delay inp).1, start)]
       else []) ++
        tableLoop (fuel - 1)
          (start + (fillPage STREAM_PAGE_SIZE [] delay inp).1.length)
          (fillPage STREAM_PAGE_SIZE [] delay inp).2.1
          (fillPage STREAM_PAGE_SIZE [] delay inp).2.2.1
          (fillPage STREAM_PAGE_SIZE [] delay inp).2.2.2 := by
  cases fuel with
  | zero => omega
  | succ m => rw [tableLoop]; simp

/-- A delayed value seeds the page before anything is pulled. -/
theorem fillPage_delay (fuel : Nat) (acc : List Value) (v : Value)
    (inp : List Value) (hf : 0 < fuel) :
    fillPage fuel acc (some v) inp = fillPage (fuel - 1) (acc ++ [v]) none inp := by
  cases fuel with
  | zero => omega
  | succ m => rw [fillPage]; simp

/-- The accumulation loop preserves column-signature homogeneity of the
page it builds, provided a delayed value only ever seeds an empty page
(which is how `TableCommand::table` always calls it). -/
theorem fillPage_homog_inv (fuel : Nat) :
    ∀ (acc : List Value) (delay : Option Value) (inp : List Value),
      (∀ x ∈ acc, ∀ y ∈ acc, x.column_names = y.column_names) →
      (delay.isSome → acc = []) →
      ∀ x ∈ (fillPage fuel acc delay inp).1, ∀ y ∈ (fillPage fuel acc delay inp).1,
        x.column_names = y.column_names := by
  induction fuel with
  | zero => intro acc delay inp hacc _; simpa [fillPage] using hacc
  | succ n ih =>
    intro acc delay inp hacc hd
    cases delay with
    | some v =>
      have ha : acc = [] := hd rfl
      subst ha
      rw [fillPage]
      exact ih [v] none inp (by simp) (by simp)
    | none =>
      cases inp with
      | nil => simpa [fillPage] using hacc
      | cons a rest =>
        cases acc with
        | nil =>
          rw [fillPage]
          exact ih [a] none rest (by simp) (by simp)
        | cons f t =>
          rw [fillPage]
          by_cases hfa : f.column_names ≠ a.column_names
          · rw [if_pos hfa]
            exact hacc
          · rw [if_neg hfa]
            push_neg at hfa
            refine ih (f :: t ++ [a]) none rest ?_ (by simp)
            intro x hx y hy
            have hmem : ∀ z, z ∈ f :: t ++ [a] → z.column_names = f.column_names := by
              intro z hz
              rw [List.cons_append] at hz
              rcases List.mem_cons.mp hz with hz | hz
              · rw [hz]
              · rcases List.mem_append.mp hz with hz | hz
                · exact hacc z (List.mem_cons_of_mem f hz) f (List.mem_cons_self f t)
                · rw [List.mem_singleton.mp hz, hfa]
            rw [hmem x hx, hmem y hy]

/-- Every page the paginator renders is column-homogeneous: the outer loop
always restarts the accumulation with an empty page. -/
theorem tableLoop_pages_homog (fuel : Nat) :
    ∀ (start : Nat) (delay : Option Value) (inp : List Value) (fin : Bool),
      ∀ p ∈ tableLoop fuel start delay inp fin, ∀ x ∈ p.1, ∀ y ∈ p.1,
        x.column_names = y.column_names := by
  induction fuel with
  | zero => intro start delay inp fin p hp; simp [tableLoop] at hp
  | succ n ih =>
    intro start delay inp fin p hp
    cases fin with
    | true => simp [tableLoop] at hp
    | false =>
      rw [tableLoop] at hp
      simp only [Bool.false_eq_true, if_false, List.mem_append] at hp
      rcases hp with hp | hp
      · by_cases he : 0 < (fillPage STREAM_PAGE_SIZE [] delay inp).1.length
        · rw [if_pos he] at hp
          rw [List.mem_singleton.mp hp]
          exact fillPage_homog_inv STREAM_PAGE_SIZE [] delay inp (by simp)
            (fun _ => rfl)
        · rw [if_neg he] at hp
          exact absurd hp (List.not_mem_nil p)
      · exact ih _ _ _ _ p hp

/-- C6.  The one-item lookahead: 500 records of shape `{a}` followed by one
`{a, b}` record followed by 3 more `{a}` records render as a first page of
exactly the 500 `{a}` records, a second page that starts with (and here
consists of) the `{a, b}` record, and a third page of the remaining `{a}`
records — and, in general, every rendered page is column-homogeneous. -/
theorem c6_schema_lookahead :
    table (List.replicate 500 (Value.row [("a", Value.str "x")]) ++
        Value.row [("a", Value.str "x"), ("b", Value.str "y")] ::
          List.replicate 3 (Value.row [("a", Value.str "x")])) =
      [(List.replicate 500 (Value.row [("a", Value.str "x")]), 0),
       ([Value.row [("a", Value.str "x"), ("b", Value.str "y")]], 500),
       (List.replicate 3 (Value.row [("a", Value.str "x")]), 501)] ∧
    ∀ (inp : List Value), ∀ p ∈ table inp, ∀ x ∈ p.1, ∀ y ∈ p.1,
      x.column_names = y.column_names := by
  constructor
  · have hb1 : fillPage STREAM_PAGE_SIZE [] none
        (List.replicate 500 (Value.row [("a", Value.str "x")]) ++
          Value.row [("a", Value.str "x"), ("b", Value.str "y")] ::
            List.replicate 3 (Value.row [("a", Value.str "x")])) =
        ([] ++ List.replicate 500 (Value.row [("a", Value.str "x")]),
         some (Value.row [("a", Value.str "x"), ("b", Value.str "y")]),
         List.replicate 3 (Value.row [("a", Value.str "x")]), false) :=
      fillPage_break ["a"] (List.replicate 500 (Value.row [("a", Value.str "x")]))
        STREAM_PAGE_SIZE [] (Value.row [("a", Value.str "x"), ("b", Value.str "y")])
        (List.replicate 3 (Value.row [("a", Value.str "x")]))
        (by simp)
        (by intro x hx; rw [List.eq_of_mem_replicate hx]; rfl)
        (by decide)
        (by intro _; exact List.ne_nil_of_length_pos (by simp))
        (by norm_num [STREAM_PAGE_SIZE])
    have hb2 : fillPage (STREAM_PAGE_SIZE - 1)
        [Value.row [("a", Value.str "x"), ("b", Value.str "y")]] none
        (List.replicate 3 (Value.row [("a", Value.str "x")])) =
        ([Value.row [("a", Value.str "x"), ("b", Value.str "y")]] ++ [],
         some (Value.row [("a", Value.str "x")]),
         List.replicate 2 (Value.row [("a", Value.str "x")]), false) := by
      rw [show List.replicate 3 (Value.row [("a", Value.str "x")]) =
        [] ++ Value.row [("a", Value.str "x")] ::
          List.replicate 2 (Value.row [("a", Value.str "x")]) from rfl]
      exact fillPage_break ["a", "b"] [] (STREAM_PAGE_SIZE - 1)
        [Value.row [("a", Value.str "x"), ("b", Value.str "y")]]
        (Value.row [("a", Value.str "x")])
        (List.replicate 2 (Value.row [("a", Value.str "x")]))
        (by intro x hx; rw [List.mem_singleton] at hx; rw [hx]; rfl)
        (by simp)
        (by decide)
        (by intro h; exact absurd h (by simp))
        (by norm_num [STREAM_PAGE_SIZE])
    have hb3 : fillPage (STREAM_PAGE_SIZE - 1) [Value.row [("a", Value.str "x")]]
        none (List.replicate 2 (Value.row [("a", Value.str "x")])) =
        ([Value.row [("a", Value.str "x")]] ++
           List.replicate 2 (Value.row [("a", Value.str "x")]), none, [], true) := by
      rw [fillPage_homog ["a"] (STREAM_PAGE_SIZE - 1)
        (List.replicate 2 (Value.row [("a", Value.str "x")]))
        [Value.row [("a", Value.str "x")]]
        (by intro x hx; rw [List.mem_singleton] at hx; rw [hx]; rfl)
        (by intro x hx; rw [List.eq_of_mem_replicate hx]; rfl)]
      norm_num [STREAM_PAGE_SIZE, List.take_replicate, List.drop_replicate]
    rw [table]
    rw [show (List.replicate 500 (Value.row [("a", Value.str "x")]) ++
        Value.row [("a", Value.str "x"), ("b", Value.str "y")] ::
          List.replicate 3 (Value.row [("a", Value.str "x")])).length + 2 = 506 by
      simp only [List.length_append, List.length_replicate, List.length_cons]]
    rw [tableLoop_step 506 0 none _ (by norm_num), hb1]
    simp only [List.nil_append, List.length_replicate]
    rw [tableLoop_step (506 - 1) (0 + 500) _ _ (by norm_num)]
    rw [fillPage_delay STREAM_PAGE_SIZE [] _ _ (by norm_num [STREAM_PAGE_SIZE])]
    simp only [List.nil_append]
    rw [hb2]
    simp only [List.append_nil, List.length_singleton]
    rw [tableLoop_step (506 - 1 - 1) (0 + 500 + 1) _ _ (by norm_num)]
    rw [fillPage_delay STREAM_PAGE_SIZE [] _ _ (by norm_num [STREAM_PAGE_SIZE])]
    simp only [List.nil_append]
    rw [hb3]
    rw [show ([Value.row [("a", Value.str "x")]] ++
        List.replicate 2 (Value.row [("a", Value.str "x")])) =
      List.replicate 3 (Value.row [("a", Value.str "x")]) from rfl]
    rw [tableLoop_finished]
    simp
  · intro inp p hp
    exact tableLoop_pages_homog (inp.length + 2) 0 none inp false p hp

/-- C6, witness for `c6_schema_lookahead`: its homogeneity clause applied
to the first rendered page of the claim's own input. -/
theorem c6_witness :
    (Value.row [("a", Value.str "x")]).column_names =
      (Value.row [("a", Value.str "x")]).column_names := by
  have h := c6_schema_lookahead
  refine h.2 (List.replicate 500 (Value.row [("a", Value.str "x")]) ++
      Value.row [("a", Value.str "x"), ("b", Value.str "y")] ::
        List.replicate 3 (Value.row [("a", Value.str "x")]))
    (List.replicate 500 (Value.row [("a", Value.str "x")]), 0)
    (by rw [h.1]; simp)
    (Value.row [("a", Value.str "x")])
    (List.mem_replicate.mpr ⟨by norm_num, rfl⟩)
    (Value.row [("a", Value.str "x")])
    (List.mem_replicate.mpr ⟨by norm_num, rfl⟩)

/-!  ## Header-union lemmas (claims C7 and C8) -/

/-- Membership in the insert-if-absent fold used by `merge_descriptors` for
a record's column names. -/
theorem mem_insertAbsentFold (ds : List String) :
    ∀ (ret : List String) (x : String),
      (x ∈ ds.foldl (fun r d => if r.contains d then r else r ++ [d]) ret) ↔
        x ∈ ret ∨ x ∈ ds := by
  induction ds with
  | nil => intro ret x; simp
  | cons d t ih =>
    intro ret x
    rw [List.foldl_cons]
    by_cases hc : ret.contains d
    · rw [if_pos hc]
      have hd : d ∈ ret := by simpa [List.contains] using hc
      rw [ih]
      simp only [List.mem_cons]
      constructor
      · rintro (hx | hx)
        · exact Or.inl hx
        · exact Or.inr (Or.inr hx)
      · rintro (hx | hx | hx)
        · exact Or.inl hx
        · exact Or.inl (hx ▸ hd)
        · exact Or.inr hx
    · rw [if_neg hc, ih]
      simp only [List.mem_append, List.mem_singleton, List.mem_cons]
      tauto

/-- The insert-if-absent fold preserves `Nodup`. -/
theorem nodup_insertAbsentFold (ds : List String) :
    ∀ (ret : List String), ret.Nodup →
      (ds.foldl (fun r d => if r.contains d then r else r ++ [d]) ret).Nodup := by
  induction ds with
  | nil => intro ret h; simpa using h
  | cons d t ih =>
    intro ret h
    rw [List.foldl_cons]
    by_cases hc : ret.contains d
    · rw [if_pos hc]; exact ih ret h
    · rw [if_neg hc]
      refine ih (ret ++ [d]) ?_
      have hd : d ∉ ret := by simpa [List.contains] using hc
      simp [List.nodup_append, h, hd]

/-- Membership in `merge_descriptors`, with the accumulator generalized:
a header is either one of some value's column names, or the anonymous `""`
contributed by a value with no column names. -/
theorem mem_merge_fold (values : List Value) :
    ∀ (ret : List String) (x : String),
      (x ∈ values.foldl
        (fun ret value =>
          let descs := value.column_names
          if descs.isEmpty then
            if ret.contains "" then ret else ret ++ [""]
          else
            descs.foldl (fun r d => if r.contains d then r else r ++ [d]) ret)
        ret) ↔
        x ∈ ret ∨ (∃ v ∈ values, x ∈ v.column_names) ∨
          (x = "" ∧ ∃ v ∈ values, v.column_names = []) := by
  induction values with
  | nil => intro ret x; simp
  | cons v t ih =>
    intro ret x
    rw [List.foldl_cons]
    by_cases hv : v.column_names.isEmpty
    · have hcn : v.column_names = [] := by simpa [List.isEmpty_iff] using hv
      simp only [hv, if_pos]
      by_cases hc : ret.contains ""
      · have he : "" ∈ ret := by simpa [List.contains] using hc
        rw [if_pos hc, ih]
        constructor
        · rintro (hx | ⟨w, hw, hxw⟩ | ⟨hx, w, hw, hwcn⟩)
          · exact Or.inl hx
          · exact Or.inr (Or.inl ⟨w, List.mem_cons_of_mem v hw, hxw⟩)
          · exact Or.inr (Or.inr ⟨hx, w, List.mem_cons_of_mem v hw, hwcn⟩)
        · rintro (hx | ⟨w, hw, hxw⟩ | ⟨hx, w, hw, hwcn⟩)
          · exact Or.inl hx
          · rcases List.mem_cons.mp hw with hw | hw
            · rw [hw, hcn] at hxw
              exact absurd hxw (List.not_mem_nil x)
            · exact Or.inr (Or.inl ⟨w, hw, hxw⟩)
          · exact Or.inl (hx ▸ he)
      · rw [if_neg hc, ih]
        constructor
        · rintro (hx | ⟨w, hw, hxw⟩ | ⟨hx, w, hw, hwcn⟩)
          · rcases List.mem_append.mp hx with hx | hx
            · exact Or.inl hx
            · exact Or.inr (Or.inr
                ⟨List.mem_singleton.mp hx, v, List.mem_cons_self v t, hcn⟩)
          · exact Or.inr (Or.inl ⟨w, List.mem_cons_of_mem v hw, hxw⟩)
          · exact Or.inr (Or.inr ⟨hx, w, List.mem_cons_of_mem v hw, hwcn⟩)
        · rintro (hx | ⟨w, hw, hxw⟩ | ⟨hx, w, hw, hwcn⟩)
          · exact Or.inl (List.mem_append_left _ hx)
          · rcases List.mem_cons.mp hw with hw | hw
            · rw [hw, hcn] at hxw
              exact absurd hxw (List.not_mem_nil x)
            · exact Or.inr (Or.inl ⟨w, hw, hxw⟩)
          · exact Or.inl (List.mem_append_right ret
              (by rw [hx]; exact List.mem_singleton_self ""))
    · simp only [hv, if_neg, Bool.false_eq_true, not_false_eq_true]
      rw [ih, mem_insertAbsentFold]
      have hcn : v.column_names ≠ [] := by simpa [List.isEmpty_iff] using hv
      constructor
      · rintro ((hx | hx) | ⟨w, hw, hxw⟩ | ⟨hx, w, hw, hwcn⟩)
        · exact Or.inl hx
        · exact Or.inr (Or.inl ⟨v, List.mem_cons_self v t, hx⟩)
        · exact Or.inr (Or.inl ⟨w, List.mem_cons_of_mem v hw, hxw⟩)
        · exact Or.inr (Or.inr ⟨hx, w, List.mem_cons_of_mem v hw, hwcn⟩)
      · rintro (hx | ⟨w, hw, hxw⟩ | ⟨hx, w, hw, hwcn⟩)
        · exact Or.inl (Or.inl hx)
        · rcases List.mem_cons.mp hw with hw | hw
          · exact Or.inl (Or.inr (hw ▸ hxw))
          · exact Or.inr (Or.inl ⟨w, hw, hxw⟩)
        · rcases List.mem_cons.mp hw with hw | hw
          · exact absurd (hw ▸ hwcn) hcn
          · exact Or.inr (Or.inr ⟨hx, w, hw, hwcn⟩)

/-- Membership characterization of `merge_descriptors`. -/
theorem mem_merge_descriptors (values : List Value) (x : String) :
    x ∈ merge_descriptors values ↔
      (∃ v ∈ values, x ∈ v.column_names) ∨
        (x = "" ∧ ∃ v ∈ values, v.column_names = []) := by
  rw [merge_descriptors, mem_merge_fold]
  simp

/-- `merge_descriptors` never repeats a header. -/
theorem nodup_merge_descriptors (values : List Value) :
    (merge_descriptors values).Nodup := by
  rw [merge_descriptors]
  have h : ∀ (vs : List Value) (ret : List String), ret.Nodup →
      (vs.foldl
        (fun ret value =>
          let descs := value.column_names
          if descs.isEmpty then
            if ret.contains "" then ret else ret ++ [""]
          else
            descs.foldl (fun r d => if r.contains d then r else r ++ [d]) ret)
        ret).Nodup := by
    intro vs
    induction vs with
    | nil => intro ret hr; simpa using hr
    | cons v t ih =>
      intro ret hr
      rw [List.foldl_cons]
      by_cases hv : v.column_names.isEmpty
      · simp only [hv, if_pos]
        by_cases hc : ret.contains ""
        · rw [if_pos hc]; exact ih ret hr
        · rw [if_neg hc]
          refine ih _ ?_
          have he : "" ∉ ret := by simpa [List.contains] using hc
          simp [List.nodup_append, hr, he]
      · simp only [hv, if_neg, Bool.false_eq_true, not_false_eq_true]
        exact ih _ (nodup_insertAbsentFold _ ret hr)
  exact h values [] (by simp)

/-!  ## Claim C7: header suppression -/

/-- C7, counterexample.  The claim says the header row is suppressed
*exactly* when the final header list is one anonymous column or an index
column plus one anonymous column.  But the header list built by
`merge_descriptors` never contains an index header (the synthetic index
cell has no header), and for the input `[{a: "x"}, "y"]` the final header
list is `["a", ""]` — its first entry is the record field name `a`, not an
index column and not anonymous — yet `print_view` suppresses the header
row (`headers.len() == 2 && headers[1] == ""`). -/
theorem c7_counterexample :
    (TableView.from_list [Value.row [("a", Value.str "x")], Value.str "y"] 0 80).map
      TableView.headers = some ["a", ""] ∧
    skip_headers ["a", ""] = true ∧
    (["a", ""] : List String) ≠ [""] ∧
    ("a" : String) ≠ "" ∧
    "a" ∈ (Value.row [("a", Value.str "x")]).column_names := by
  refine ⟨rfl, rfl, by simp, by simp, ?_⟩
  rw [show (Value.row [("a", Value.str "x")]).column_names = ["a"] from rfl]
  exact List.mem_singleton_self "a"

/-- C7, amended.  The header row is suppressed exactly when the final
header list is a single anonymous (empty-string) column, or has exactly
two entries with the *second* anonymous — the first entry may be any
header, not necessarily an index column (the header list never contains an
index header).  In particular a list of plain text scalars renders no
header row, while a single record with one named field renders it. -/
theorem c7_header_suppression :
    (∀ hs : List String, skip_headers hs = true ↔ hs = [""] ∨ ∃ h, hs = [h, ""]) ∧
    (TableView.from_list [Value.str "x", Value.str "y"] 0 80).map
      (fun t => skip_headers t.headers) = some true ∧
    (TableView.from_list [Value.row [("name", Value.str "v")]] 0 80).map
      (fun t => skip_headers t.headers) = some false := by
  refine ⟨?_, rfl, rfl⟩
  intro hs
  match hs with
  | [] => simp [skip_headers]
  | [a] => simp [skip_headers]
  | [a, b] => simp [skip_headers]
  | a :: b :: c :: t => simp [skip_headers]

/-- C7, witness for `c7_header_suppression`: the single-anonymous-column
case is suppressed. -/
theorem c7_witness : skip_headers [""] = true :=
  (c7_header_suppression.1 [""]).mpr (Or.inl rfl)

/-!  ## Claim C8: header union -/

/-- The header-union computation as the claim states it: field names of
`Record` values in first-seen order, with any *non-`Record`* value
contributing the anonymous column if absent (so an empty `Record`
contributes nothing). -/
def merge_descriptors_claimed (values : List Value) : List String :=
  values.foldl
    (fun ret value =>
      match value with
      | .row r =>
        (r.map Prod.fst).foldl (fun s d => if s.contains d then s else s ++ [d]) ret
      | _ => if ret.contains "" then ret else ret ++ [""])
    []

/-- C8, counterexample.  A `Record` with no fields is not a non-`Record`
value, so under the claim it contributes nothing; but the code keys on
`column_names().is_empty()` and gives it the anonymous column: the header
list for `[{}]` is `[""]`, not `[]`. -/
theorem c8_counterexample :
    merge_descriptors [Value.row []] = [""] ∧
    merge_descriptors_claimed [Value.row []] = [] ∧
    ([""] : List String) ≠ [] := ⟨rfl, rfl, by simp⟩

/-- C8, amended.  The header list is the duplicate-free union, in
first-seen order, of all `Record` field names across the input, and any
value with an empty column-name list — non-`Record` values *and* empty
`Record`s — contributes one anonymous empty-string column if not already
present; for input `[{a,b}, {b,c}]` the headers are `[a, b, c]`. -/
theorem c8_header_union :
    (∀ (values : List Value) (d : String),
      d ∈ merge_descriptors values ↔
        (∃ v ∈ values, d ∈ v.column_names) ∨
          (d = "" ∧ ∃ v ∈ values, v.column_names = [])) ∧
    (∀ values : List Value, (merge_descriptors values).Nodup) ∧
    merge_descriptors [Value.row [("a", Value.nothing), ("b", Value.nothing)],
        Value.row [("b", Value.nothing), ("c", Value.nothing)]] = ["a", "b", "c"] :=
  ⟨mem_merge_descriptors, nodup_merge_descriptors, rfl⟩

/-- C8, witness for `c8_header_union`: a record field name is a header. -/
theorem c8_witness : "a" ∈ merge_descriptors [Value.row [("a", Value.nothing)]] :=
  (c8_header_union.1 [Value.row [("a", Value.nothing)]] "a").mpr
    (Or.inl ⟨Value.row [("a", Value.nothing)], List.mem_singleton_self _,
      by rw [show (Value.row [("a", Value.nothing)]).column_names = ["a"] from rfl]
         exact List.mem_singleton_self "a"⟩)

/-!  ## Claim C9: terminal width budget -/

/-- C9.  The width-budget computation `max(textwrap::termwidth() - 7, 20)`
is not total: for a terminal reporting width 3 the `usize` subtraction
underflows (a panic in debug builds), and under release wrap-around
semantics the budget becomes `2^64 - 4` — an absurd width, not the
reported width floored at 20.  For widths ≥ 7 the computation does floor
at 20 as the claim says (e.g. reported 100 gives 93, reported 10 gives
20). -/
theorem c9_termwidth_underflow :
    sub_underflows 3 7 = true ∧
    termwidth_of_reported 3 = 18446744073709551612 ∧
    termwidth_of_reported 3 ≠ 20 ∧
    termwidth_of_reported 100 = 93 ∧
    termwidth_of_reported 10 = 20 := by
  refine ⟨rfl, by decide, by decide, by decide, by decide⟩

/-!  ## Claim C10: row width invariant -/

/-- On a non-empty input, `TableView::from_list` is the wrap of the
(possibly truncated) headers and entries, for some naive and final column
widths. -/
theorem from_list_shape (values : List Value) (si W : Nat) (hne : values ≠ []) :
    ∃ naive mw,
      TableView.from_list values si W =
        some (wrap_cells
          (maybe_truncate_columns (values_to_entries values (merge_descriptors values) si).1
            (values_to_entries values (merge_descriptors values) si).2 W).1
          (maybe_truncate_columns (values_to_entries values (merge_descriptors values) si).1
            (values_to_entries values (merge_descriptors values) si).2 W).2
          (max_per_column (values_to_entries values (merge_descriptors values) si).1
            (values_to_entries values (merge_descriptors values) si).2 values.length)
          naive mw) := by
  set p := values_to_entries values (merge_descriptors values) si with hp
  set q := maybe_truncate_columns p.1 p.2 W with hq
  set mpc := max_per_column p.1 p.2 values.length with hmpc
  set naive := (W - 3 * (q.1.length - 1)) / q.1.length with hnaive
  set cs := ColumnSpace.measure mpc naive q.1.length with hcs
  set cs2 := cs.fix_almost_column_width mpc naive (cs.max_width W) q.1.length with hcs2
  refine ⟨naive, cs2.max_width W, ?_⟩
  rw [TableView.from_list, if_neg (by simpa [List.isEmpty_iff] using hne)]

/-- Every row built by `values_to_entries` has one cell per header plus
the synthetic leading index cell. -/
theorem values_to_entries_row_len (values : List Value) (hs : List String)
    (si : Nat) :
    ∀ e ∈ (values_to_entries values hs si).2,
      e.length = (values_to_entries values hs si).1.length + 1 := by
  intro e he
  simp only [values_to_entries] at he ⊢
  obtain ⟨p, _, rfl⟩ := List.mem_map.mp he
  simp [Nat.add_comm]

/-- `wrap_cells` changes only cell text, never the shape: header count and
every row's cell count are preserved. -/
theorem wrap_cells_shape (headers : List String) (entries : Entries)
    (mpc : List Nat) (naive mw : Nat) :
    (wrap_cells headers entries mpc naive mw).headers.length = headers.length ∧
    ∀ e ∈ (wrap_cells headers entries mpc naive mw).entries,
      ∃ e0 ∈ entries, e.length = e0.length := by
  constructor
  · simp [wrap_cells]
  · intro e he
    simp only [wrap_cells] at he
    obtain ⟨e0, he0, rfl⟩ := List.mem_map.mp he
    exact ⟨e0, he0, by simp⟩

/-- C10, counterexample.  The claim says every entry row has exactly one
more cell than the header list *whether or not column truncation fired*.
With `termwidth = 20` a three-field record is truncated to
`20 / 10 = 2` columns: the final header list is `["a", "b", "..."]`
(3 entries) and the single row is `[index, a-cell, "..."]` (3 cells) —
equal to the header count, not one more. -/
theorem c10_counterexample :
    (TableView.from_list [Value.row [("a", Value.nothing), ("b", Value.nothing),
        ("c", Value.nothing)]] 0 20).map
      (fun t => (t.headers.length, t.entries.map List.length)) = some (3, [3]) ∧
    (3 : Nat) ≠ 3 + 1 := ⟨rfl, by simp⟩

/-- C10, amended.  For every non-empty input, `from_list` succeeds, and:
when column truncation does not fire (prelim header count ≤ `W / 10`)
every entry row has exactly one more cell than the header list — the extra
cell being the synthetic leading index cell, for which the header list
contains no header; when truncation fires, the appended ellipsis column
re-aligns the counts and every row has exactly as many cells as the header
list. -/
theorem c10_row_width_invariant (values : List Value) (si W : Nat)
    (hne : values ≠ []) :
    ∃ t, TableView.from_list values si W = some t ∧
      (((values_to_entries values (merge_descriptors values) si).1.length ≤ W / 10 →
        t.headers.length =
          (values_to_entries values (merge_descriptors values) si).1.length ∧
        ∀ e ∈ t.entries, e.length = t.headers.length + 1) ∧
       (W / 10 < (values_to_entries values (merge_descriptors values) si).1.length →
        t.headers.length = W / 10 + 1 ∧
        ∀ e ∈ t.entries, e.length = t.headers.length)) := by
  obtain ⟨naive, mw, hfl⟩ := from_list_shape values si W hne
  set p1 := (values_to_entries values (merge_descriptors values) si).1 with hp1
  set p2 := (values_to_entries values (merge_descriptors values) si).2 with hp2
  set M := max_per_column p1 p2 values.length with hM
  have hshape := wrap_cells_shape (maybe_truncate_columns p1 p2 W).1
    (maybe_truncate_columns p1 p2 W).2 M naive mw
  refine ⟨_, hfl, ?_, ?_⟩
  · intro hle
    have hnt : ¬ (W / 10 < p1.length) := Nat.not_lt.mpr hle
    have htr1 : (maybe_truncate_columns p1 p2 W).1 = p1 := by
      rw [maybe_truncate_columns, if_neg hnt]
    have htr2 : (maybe_truncate_columns p1 p2 W).2 = p2 := by
      rw [maybe_truncate_columns, if_neg hnt]
    constructor
    · rw [hshape.1, htr1]
    · intro e he
      obtain ⟨e0, he0, hlen⟩ := hshape.2 e he
      rw [htr2] at he0
      have hrow := values_to_entries_row_len values (merge_descriptors values) si e0
        (hp2 ▸ he0)
      rw [← hp1] at hrow
      rw [hlen, hshape.1, htr1]
      exact hrow
  · intro hlt
    have htr1 : (maybe_truncate_columns p1 p2 W).1 = p1.take (W / 10) ++ ["..."] := by
      rw [maybe_truncate_columns, if_pos hlt]
    have htr2 : (maybe_truncate_columns p1 p2 W).2 =
        p2.map (fun e => e.take (W / 10) ++ [("...", "c")]) := by
      rw [maybe_truncate_columns, if_pos hlt]
    have hhl : (wrap_cells (maybe_truncate_columns p1 p2 W).1
        (maybe_truncate_columns p1 p2 W).2 M naive mw).headers.length =
        W / 10 + 1 := by
      rw [hshape.1, htr1]
      simp [Nat.le_of_lt hlt]
    constructor
    · exact hhl
    · intro e he
      obtain ⟨e0, he0, hlen⟩ := hshape.2 e he
      rw [htr2] at he0
      obtain ⟨e1, he1, rfl⟩ := List.mem_map.mp he0
      have hrow := values_to_entries_row_len values (merge_descriptors values) si e1
        (hp2 ▸ he1)
      rw [← hp1] at hrow
      rw [hlen, hhl]
      simp only [List.length_append, List.length_take, List.length_singleton, hrow]
      omega

/-- C10, witness for `c10_row_width_invariant`: one single-field record at
width 80 — no truncation, so the row has its 2 cells against 1 header. -/
theorem c10_witness :
    ∃ t, TableView.from_list [Value.row [("a", Value.nothing)]] 0 80 = some t ∧
      t.headers.length = 1 ∧ ∀ e ∈ t.entries, e.length = 2 := by
  obtain ⟨t, ht, hcase⟩ :=
    c10_row_width_invariant [Value.row [("a", Value.nothing)]] 0 80 (by simp)
  have h := hcase.1 (by decide)
  have hh : t.headers.length = 1 := by
    rw [h.1]; rfl
  exact ⟨t, ht, hh, fun e he => by rw [h.2 e he, hh]⟩

end Enginen
